import Mathlib

set_option maxRecDepth 4000

/-!
A verification development for the pattern-matching core of `grepper.py`.

Strings are modelled as `List Char` (Python `str` is a sequence of Unicode
code points).  The fragment of Python's `re` engine that the program
generates is embedded explicitly: every compiled pattern is a sequence of
literal-character atoms and named capture groups, anchored on both sides.
-/

/-- The characters escaped by Python 3.8 `re.escape`
(`_special_chars_map`, built from the byte string of metacharacters). -/
def specialChar (c : Char) : Bool :=
  c = '(' || c = ')' || c = '[' || c = ']' || c = '\x7b' || c = '\x7d' ||
  c = '?' || c = '*' || c = '+' || c = '-' || c = '|' || c = '^' || c = '$' ||
  c = '\\' || c = '.' || c = '&' || c = '~' || c = '#' || c = ' ' ||
  c = '\t' || c = '\n' || c = '\r' || c = '\x0b' || c = '\x0c'

/-- Python 3.8 `re.escape`: each metacharacter is preceded by a backslash. -/
def escape : List Char → List Char
  | [] => []
  | c :: cs => if specialChar c then '\\' :: c :: escape cs else c :: escape cs

/-- `Grepper._unescape`, i.e. `re.sub(r"\\(.)", r"\1", string)`.
The `.` in the pattern does not match a newline, so a backslash followed
by a newline is left untouched and scanning resumes at the newline. -/
def unescape : List Char → List Char
  | [] => []
  | '\\' :: c :: cs => if c = '\n' then '\\' :: unescape (c :: cs) else c :: unescape cs
  | c :: cs => c :: unescape cs

/-- A token-capture modifier: none (lazy), `G` (greedy) or `S<digits>`
(spaces-limited).  The `S` count is kept as the digit string that appears
in the template.  `spaces` is an `S` count as detected; when the count is
all ASCII digits, `re` reads the emitted repetition as a number (checked
against MAXREPEAT at compile time), while a count containing non-ASCII
decimal digits is not a valid repetition spec for the engine's parser,
which then reads the braces as literal characters — the compile step
(`sreCompile`) rewrites such a token to `spacesLit`. -/
inductive TokMod
  | non
  | greedy
  | spaces (count : List Char)
  | spacesLit (count : List Char)
deriving DecidableEq, Repr

/-- One atom of a compiled pattern: a literal character (produced by
escaping) or a named token capture group `(?P<token_index>...)`. -/
inductive Item
  | lit (c : Char)
  | tok (index : List Char) (m : TokMod)
deriving DecidableEq, Repr

/-- Construction-time errors of `Grepper.__init__`.  The first two are
`ValueError` in the source, distinguished here by shape; the
duplicate-index error carries the unescaped offending token text and the
unescaped full template, the two values interpolated into the exception
message by `_raise_on_duplicate_token_index`.  `repetitionTooLarge` is the
`OverflowError("the repetition number is too large")` that `re.compile`'s
parser raises when a repetition count reaches MAXREPEAT. -/
inductive GrepError
  | noPatterns
  | duplicateTokenIndex (token template : List Char)
  | repetitionTooLarge
deriving DecidableEq, Repr

/-- The escaped-form text of a placeholder as it occurs inside an escaped
template (the text consumed by `_TOKEN_CAPTURE_RE`). -/
def modEsc : TokMod → List Char
  | TokMod.non => []
  | TokMod.greedy => ['G']
  | TokMod.spaces ms => 'S' :: ms
  | TokMod.spacesLit ms => 'S' :: ms

def tokenEsc (ds : List Char) (m : TokMod) : List Char :=
  '%' :: '\\' :: '\x7b' :: (ds ++ modEsc m ++ ['\\', '\x7d'])

/-- The raw (unescaped) text of a placeholder as the user wrote it. -/
def tokenText (ds : List Char) (m : TokMod) : List Char :=
  '%' :: '\x7b' :: (ds ++ modEsc m ++ ['\x7d'])

/-- The Nd (decimal digit) ranges of Unicode 12.1, the Unicode version of
CPython 3.8: `\d` in a str pattern matches exactly these code points. -/
def ndRanges : List (Nat × Nat) :=
  [(0x30, 0x39), (0x660, 0x669), (0x6f0, 0x6f9), (0x7c0, 0x7c9),
   (0x966, 0x96f), (0x9e6, 0x9ef), (0xa66, 0xa6f), (0xae6, 0xaef),
   (0xb66, 0xb6f), (0xbe6, 0xbef), (0xc66, 0xc6f), (0xce6, 0xcef),
   (0xd66, 0xd6f), (0xde6, 0xdef), (0xe50, 0xe59), (0xed0, 0xed9),
   (0xf20, 0xf29), (0x1040, 0x1049), (0x1090, 0x1099), (0x17e0, 0x17e9),
   (0x1810, 0x1819), (0x1946, 0x194f), (0x19d0, 0x19d9), (0x1a80, 0x1a89),
   (0x1a90, 0x1a99), (0x1b50, 0x1b59), (0x1bb0, 0x1bb9), (0x1c40, 0x1c49),
   (0x1c50, 0x1c59), (0xa620, 0xa629), (0xa8d0, 0xa8d9), (0xa900, 0xa909),
   (0xa9d0, 0xa9d9), (0xa9f0, 0xa9f9), (0xaa50, 0xaa59), (0xabf0, 0xabf9),
   (0xff10, 0xff19), (0x104a0, 0x104a9), (0x10d30, 0x10d39),
   (0x11066, 0x1106f), (0x110f0, 0x110f9), (0x11136, 0x1113f),
   (0x111d0, 0x111d9), (0x112f0, 0x112f9), (0x11450, 0x11459),
   (0x114d0, 0x114d9), (0x11650, 0x11659), (0x116c0, 0x116c9),
   (0x11730, 0x11739), (0x118e0, 0x118e9), (0x11c50, 0x11c59),
   (0x11d50, 0x11d59), (0x11da0, 0x11da9), (0x16a60, 0x16a69),
   (0x16b50, 0x16b59), (0x1d7ce, 0x1d7ff), (0x1e140, 0x1e149),
   (0x1e2f0, 0x1e2f9), (0x1e950, 0x1e959)]

/-- Python `\d` in a str pattern (with `re.UNICODE`): any Unicode decimal
digit, category Nd — not only ASCII. -/
def ndDigit (c : Char) : Bool :=
  ndRanges.any fun p => p.1 ≤ c.toNat && c.toNat ≤ p.2

/-- Matching of `_TOKEN_CAPTURE_RE = r"%\\{(?P<index>\d+)(?P<modifier>G|S(\d+))?\\}"`
at the head of an escaped template.  `\d+` is possessive here because a
shorter digit run is necessarily followed by a digit, which none of the
continuations accept; similarly the optional modifier group commits to its
`G`/`S` branch, since the no-modifier continuation requires a backslash. -/
def matchTokenAt : List Char → Option (List Char × TokMod × List Char)
  | '%' :: '\\' :: '\x7b' :: rest =>
    match rest.takeWhile ndDigit, rest.dropWhile ndDigit with
    | [], _ => none
    | ds, 'G' :: '\\' :: '\x7d' :: r => some (ds, TokMod.greedy, r)
    | ds, 'S' :: r2 =>
      match r2.takeWhile ndDigit, r2.dropWhile ndDigit with
      | [], _ => none
      | ms, '\\' :: '\x7d' :: r => some (ds, TokMod.spaces ms, r)
      | _, _ => none
    | ds, '\\' :: '\x7d' :: r => some (ds, TokMod.non, r)
    | _, _ => none
  | _ => none

/-- The left-to-right scan of `re.sub(_TOKEN_CAPTURE_RE, token_mapper, pattern)`
over an escaped template: at each position, either the token regex matches
and a capture-group atom is produced, or one literal atom is produced.  A
backslash pair `\c` in the escaped text is a single literal atom matching
`c` (a token match can never begin at the second character of such a pair,
because that character is a metacharacter while a token starts with `%`).
Structural recursion on a fuel bounded by the text length; each step
consumes at least one character, so the fuel never runs out. -/
def tokenizeF : Nat → List Char → List Item
  | 0, _ => []
  | fuel + 1, cs =>
    match matchTokenAt cs with
    | some (ds, m, r) => Item.tok ds m :: tokenizeF fuel r
    | none =>
      match cs with
      | [] => []
      | '\\' :: c :: cs2 => Item.lit c :: tokenizeF fuel cs2
      | c :: cs2 => Item.lit c :: tokenizeF fuel cs2

def tokenize (cs : List Char) : List Item := tokenizeF cs.length cs

/-- The per-token work of `Grepper._map_token_to_re` together with the
accumulation of `re.sub`: walk the detected atoms in order, tracking the
set of already-seen indices, and fail on a duplicate exactly as
`_raise_on_duplicate_token_index` does, with the unescaped token text
(`group(0)` of the token match) and the unescaped full escaped template
(`token_match.string`). -/
def replaceTokens (esc : List Char) (seen : List (List Char)) :
    List Item → Except GrepError (List Item)
  | [] => Except.ok []
  | Item.lit c :: ps =>
    (replaceTokens esc seen ps).map fun items => Item.lit c :: items
  | Item.tok ds m :: ps =>
    if ds ∈ seen then
      Except.error (GrepError.duplicateTokenIndex (unescape (tokenEsc ds m)) (unescape esc))
    else
      (replaceTokens esc (ds :: seen) ps).map fun items => Item.tok ds m :: items

/-- Numeric value of an ASCII digit string, as `re` reads a `{n}`
repetition count (so `{02}` means 2). -/
def digitsVal (ds : List Char) : Nat :=
  ds.foldl (fun a c => 10 * a + (c.toNat - 48)) 0

/-- The MAXREPEAT bound of CPython's `sre`: a repetition count that
reaches it makes the parser raise
`OverflowError("the repetition number is too large")`. -/
def MAXREPEAT : Nat := 4294967295

/-- The compile step of `re.compile` over the substituted source, walking
the atoms left to right as the engine's parser does.  The only atoms whose
source can be rejected or reinterpreted are the `S<count>` token bodies
`(?:\S*\s\S*){count}\S*`:
* a count of ASCII digits is a repetition number, rejected when it reaches
  MAXREPEAT;
* a count containing a non-ASCII decimal digit is not a valid repetition
  spec (the parser's repetition digits are ASCII only), so the braces and
  the count are read back as literal characters inside the group — the
  atom is rewritten to `spacesLit`.
All other atoms (literals, lazy and greedy captures) compile unchanged. -/
def sreCompile : List Item → Except GrepError (List Item)
  | [] => Except.ok []
  | Item.lit c :: ps => (sreCompile ps).map fun out => Item.lit c :: out
  | Item.tok ds TokMod.non :: ps =>
    (sreCompile ps).map fun out => Item.tok ds TokMod.non :: out
  | Item.tok ds TokMod.greedy :: ps =>
    (sreCompile ps).map fun out => Item.tok ds TokMod.greedy :: out
  | Item.tok ds (TokMod.spaces ms) :: ps =>
    if ms.all Char.isDigit then
      if MAXREPEAT ≤ digitsVal ms then Except.error GrepError.repetitionTooLarge
      else (sreCompile ps).map fun out => Item.tok ds (TokMod.spaces ms) :: out
    else (sreCompile ps).map fun out => Item.tok ds (TokMod.spacesLit ms) :: out
  | Item.tok ds (TokMod.spacesLit ms) :: ps =>
    (sreCompile ps).map fun out => Item.tok ds (TokMod.spacesLit ms) :: out

/-- `Grepper.map_pattern_to_re`: takes an escaped template, substitutes the
token captures (tracking duplicate indices) and compiles the result
anchored as `^...$` with `re.UNICODE`.  The anchors are part of the
matching semantics (`runItems`) rather than of the atom list; the compile
step can still fail on an oversized repetition count. -/
def map_pattern_to_re (pattern : List Char) : Except GrepError (List Item) :=
  match replaceTokens pattern [] (tokenize pattern) with
  | Except.error e => Except.error e
  | Except.ok items => sreCompile items

/-- Python `\s` with `re.UNICODE`: ASCII whitespace, the C1 separators,
NEL, NBSP and the Unicode space characters. -/
def wsChar (c : Char) : Bool :=
  (9 ≤ c.toNat && c.toNat ≤ 13) || c.toNat = 32 ||
  (28 ≤ c.toNat && c.toNat ≤ 31) || c.toNat = 0x85 || c.toNat = 0xa0 ||
  c.toNat = 0x1680 || (0x2000 ≤ c.toNat && c.toNat ≤ 0x200a) ||
  c.toNat = 0x2028 || c.toNat = 0x2029 || c.toNat = 0x202f ||
  c.toNat = 0x205f || c.toNat = 0x3000

/-- Python `.` without `re.DOTALL`: any character except a newline. -/
def dotChar (c : Char) : Bool := c != '\n'

/-- All splits of a string into a prefix/suffix pair, shortest prefix
first. -/
def splits : List Char → List (List Char × List Char)
  | [] => [([], [])]
  | c :: cs => ([], c :: cs) :: (splits cs).map fun p => (c :: p.1, p.2)

/-- The language of a `spacesLit` capture body: the parser read
`(?:\S*\s\S*)` unquantified (one iteration, exactly one whitespace
character), then the brace and the count as literal characters, then
`\S*`. -/
def spacesOnceOk (ms w : List Char) : Bool :=
  (List.range (w.length + 1)).any fun k =>
    ((w.take k).countP wsChar == 1) &&
    ((w.drop k).take (ms.length + 2) == '\x7b' :: (ms ++ ['\x7d'])) &&
    (((w.drop k).drop (ms.length + 2)).all fun c => !wsChar c)

/-- The candidate consumptions of one atom at the current position, in the
order Python's backtracking engine tries them:
* a literal consumes exactly its character;
* an unmodified token is `.*?` — newline-free prefixes, shortest first;
* a `G` token is `.*` — newline-free prefixes, longest first;
* an `S<n>` token is `(?:\S*\s\S*){n}\S*`, whose language is the set of
  strings containing exactly `n` whitespace characters and whose greedy
  sub-parts yield candidates longest first. -/
def candidates : Item → List Char → List (List Char × List Char)
  | Item.lit _, [] => []
  | Item.lit c, c2 :: r => if c2 = c then [([c], r)] else []
  | Item.tok _ TokMod.non, s => (splits s).filter fun p => p.1.all dotChar
  | Item.tok _ TokMod.greedy, s => ((splits s).filter fun p => p.1.all dotChar).reverse
  | Item.tok _ (TokMod.spaces ms), s =>
    ((splits s).filter fun p => p.1.countP wsChar == digitsVal ms).reverse
  | Item.tok _ (TokMod.spacesLit ms), s =>
    ((splits s).filter fun p => spacesOnceOk ms p.1).reverse

/-- First `some` produced by `f` over a list, in order. -/
def firstSome {α β : Type} (f : α → Option β) : List α → Option β
  | [] => none
  | x :: xs =>
    match f x with
    | some b => some b
    | none => firstSome f xs

/-- Backtracking search of the compiled pattern `^items$` against a string,
anchored at the start.  Returns the first successful assignment in engine
order: the list of (atom, consumed text) pairs, and the leftover suffix
accepted by `$` (empty, or a single final newline, since `$` also matches
just before a newline that ends the string). -/
def runItems : List Item → List Char → Option (List (Item × List Char) × List Char)
  | [], s =>
    if s = [] then some ([], [])
    else if s = ['\n'] then some ([], ['\n']) else none
  | it :: its, s =>
    firstSome
      (fun p => (runItems its p.2).map fun q => ((it, p.1) :: q.1, q.2))
      (candidates it s)

/-- `_TOKEN_GROUP_PREFIX`: capture groups are named `token_<digits>`. -/
def tokenGroupPfx : List Char := "token_".data

/-- The named-group dictionary of a successful match, in atom order. -/
def groupsOf (asg : List (Item × List Char)) : List (List Char × List Char) :=
  asg.filterMap fun p =>
    match p.1 with
    | Item.tok ds _ => some (tokenGroupPfx ++ ds, p.2)
    | Item.lit _ => none

/-- Lookup of a named group in a match, modelling `re.Match.group(name)`. -/
def lookupGroup : List (List Char × List Char) → List Char → Option (List Char)
  | [], _ => none
  | (n, w) :: rest, name => if n = name then some w else lookupGroup rest name

/-- The group names a compiled pattern declares, in order. -/
def declaredGroups (items : List Item) : List (List Char) :=
  items.filterMap fun it =>
    match it with
    | Item.tok ds _ => some (tokenGroupPfx ++ ds)
    | Item.lit _ => none

/-- The failure of `re.Match.group` on a group name the pattern does not
define (an `IndexError` in CPython), modelled as a failure result. -/
inductive TokenError
  | invalidTokenIndex
deriving DecidableEq, Repr

/-- The `Match` wrapper: the underlying match's group captures, the
original subject string (`re.Match.string`) and the originating template. -/
structure Match where
  groups : List (List Char × List Char)
  string : List Char
  pattern : List Char
deriving DecidableEq, Repr

/-- `Match.token`: get matched text by token index, via the group named
`f"token_{index}"`. -/
def Match.token (m : Match) (i : Nat) : Except TokenError (List Char) :=
  match lookupGroup m.groups (tokenGroupPfx ++ (Nat.repr i).data) with
  | some w => Except.ok w
  | none => Except.error TokenError.invalidTokenIndex

/-- `Match.line`: the full matched line, i.e. the `string` attribute of the
wrapped `re.Match` — the entire subject passed to `match`. -/
def Match.line (m : Match) : List Char := m.string

/-- A pattern set: the original templates and their compiled patterns, in
declared order. -/
structure Grepper where
  patterns : List (List Char)
  regexes : List (List Item)
deriving DecidableEq, Repr

/-- Compilation of each escaped template in order with fail-fast error
propagation, as the generator inside `tuple(...)` in `Grepper.__init__`. -/
def mapCompile : List (List Char) → Except GrepError (List (List Item))
  | [] => Except.ok []
  | t :: ts =>
    match map_pattern_to_re t with
    | Except.error e => Except.error e
    | Except.ok items =>
      match mapCompile ts with
      | Except.error e => Except.error e
      | Except.ok rs => Except.ok (items :: rs)

/-- `Grepper.__init__`: requires at least one template, escapes every
template, compiles each one. -/
def grepperInit (patterns : List (List Char)) : Except GrepError Grepper :=
  if patterns = [] then Except.error GrepError.noPatterns
  else (mapCompile (patterns.map escape)).map fun rs =>
    { patterns := patterns, regexes := rs }

/-- The loop body of `Grepper.match_line`: try each compiled pattern in
order against the line; the first success builds the `Match` from that
pattern's groups, the subject line and the originating template. -/
def matchFirst : List (List Item × List Char) → List Char → Option Match
  | [], _ => none
  | (items, pat) :: rest, s =>
    match runItems items s with
    | some (asg, _) => some { groups := groupsOf asg, string := s, pattern := pat }
    | none => matchFirst rest s

/-- `Grepper.match_line`: returns the first match, or `none` when no
pattern matches (the Python function falls off the loop and returns
`None`). -/
def Grepper.match_line (g : Grepper) (s : List Char) : Option Match :=
  matchFirst (g.regexes.zip g.patterns) s

/-- Convenience: build a pattern set from templates and test a line. -/
def buildMatches (ts : List (List Char)) (s : List Char) : Bool :=
  match grepperInit ts with
  | Except.ok g => (g.match_line s).isSome
  | Except.error _ => false

/-- Convenience: the captured text for token `i` of the first match, if
construction and matching succeed and the index is declared. -/
def tokenAt (ts : List (List Char)) (s : List Char) (i : Nat) : Option (List Char) :=
  match grepperInit ts with
  | Except.ok g =>
    match g.match_line s with
    | some m =>
      match m.token i with
      | Except.ok w => some w
      | Except.error _ => none
    | none => none
  | Except.error _ => none

/-- Convenience: the originating template of the first match. -/
def patternAt (ts : List (List Char)) (s : List Char) : Option (List Char) :=
  match grepperInit ts with
  | Except.ok g =>
    match g.match_line s with
    | some m => some m.pattern
    | none => none
  | Except.error _ => none

/-- Whether an `Except` is a success. -/
def isOkB {ε α : Type} : Except ε α → Bool
  | Except.ok _ => true
  | Except.error _ => false

/-- The index digit strings of a list of detected atoms, in order. -/
def dsOfItems (items : List Item) : List (List Char) :=
  items.filterMap fun it =>
    match it with
    | Item.tok ds _ => some ds
    | Item.lit _ => none

/-- The index digit strings of the placeholders detected in a template,
in scan order. -/
def dsList (t : List Char) : List (List Char) :=
  dsOfItems (tokenize (escape t))

/-- The string an atom is allowed to consume: a literal consumes exactly
its character; an unmodified or `G` token consumes any newline-free text
(`.` excludes newlines); an `S<n>` token consumes any text containing
exactly `n` whitespace characters. -/
def itemOkB : Item → List Char → Bool
  | Item.lit c, w => w == [c]
  | Item.tok _ TokMod.non, w => w.all dotChar
  | Item.tok _ TokMod.greedy, w => w.all dotChar
  | Item.tok _ (TokMod.spaces ms), w => w.countP wsChar == digitsVal ms
  | Item.tok _ (TokMod.spacesLit ms), w => spacesOnceOk ms w

/-- What `$` accepts as the unconsumed rest: nothing, or one final
newline. -/
def endOk (r : List Char) : Prop := r = [] ∨ r = ['\n']

/-- Concatenation of the consumed texts of an assignment. -/
def joinSnd : List (Item × List Char) → List Char
  | [] => []
  | p :: ps => p.2 ++ joinSnd ps

/-- A successful way to match `^items$` against `s`: one consumed text per
atom, each allowed for its atom, jointly consuming all of `s` except a
rest accepted by `$`. -/
def ValidAsg (items : List Item) (s : List Char)
    (asg : List (Item × List Char)) (r : List Char) : Prop :=
  asg.map Prod.fst = items ∧ (∀ p ∈ asg, itemOkB p.1 p.2 = true) ∧
    joinSnd asg ++ r = s ∧ endOk r

/-- Engine preference between two consumptions of the same atom at the
same position: a literal has no choice; an unmodified (lazy) token prefers
the shorter text; a greedy or spaces-limited token prefers the longer. -/
def prefersOrEq : Item → List Char → List Char → Prop
  | Item.lit _, w, v => w = v
  | Item.tok _ TokMod.non, w, v => w.length ≤ v.length
  | Item.tok _ TokMod.greedy, w, v => v.length ≤ w.length
  | Item.tok _ (TokMod.spaces _), w, v => v.length ≤ w.length
  | Item.tok _ (TokMod.spacesLit _), w, v => v.length ≤ w.length

/-- Strict engine order between two candidate splits for one atom. -/
def prefRel : Item → (List Char × List Char) → (List Char × List Char) → Prop
  | Item.lit _, _, _ => False
  | Item.tok _ TokMod.non, p, q => p.1.length < q.1.length
  | Item.tok _ TokMod.greedy, p, q => q.1.length < p.1.length
  | Item.tok _ (TokMod.spaces _), p, q => q.1.length < p.1.length
  | Item.tok _ (TokMod.spacesLit _), p, q => q.1.length < p.1.length

/-- A string without whitespace characters (`\S*`). -/
def NoWs (w : List Char) : Prop := ∀ c ∈ w, wsChar c = false

/-- The language written in the specification for the `S<n>` modifier:
a run of non-space characters, then exactly `n` repetitions of a single
whitespace character followed by a run of non-space characters (the
trailing run is absorbed by the last repetition's run). -/
inductive SLang : Nat → List Char → Prop
  | base {w} : NoWs w → SLang 0 w
  | step {a c b n} : NoWs a → wsChar c = true → SLang n b → SLang (n + 1) (a ++ c :: b)

deriving instance DecidableEq for Except

/-- Lookup of a named group of the first match, for concrete tests. -/
def groupAt (ts : List (List Char)) (s : List Char) (name : List Char) :
    Option (List Char) :=
  match grepperInit ts with
  | Except.ok g =>
    match g.match_line s with
    | some m => lookupGroup m.groups name
    | none => none
  | Except.error _ => none

/-- Concrete templates and lines used by the specification's examples. -/
def tmplBasic : List Char := "foo %\x7b0\x7d is a %\x7b1\x7d".data

def tmplS0 : List Char := "foo %\x7b0\x7d is a %\x7b1S0\x7d".data

def tmplGreedy : List Char := "bar %\x7b0G\x7d foo %\x7b1\x7d".data

def tmplDup : List Char := "foo %\x7b0\x7d is a %\x7b0\x7d".data

def tmplZeroZero : List Char := "foo %\x7b0\x7d is a %\x7b00\x7d".data

def tmplOverflow : List Char := "%\x7b0S4294967295\x7d".data

def tmplDot : List Char := "a.b".data

def tmplFoo : List Char := "foo".data

def tmplBaz : List Char := "baz".data

def lineBar : List Char := "foo blah is a bar".data

def lineBoat : List Char := "foo blah is a very big boat".data

def lineIsBar : List Char := "foo blah is bar".data

def lineFooBlah : List Char := "foo blah".data

def lineFooBlahIs : List Char := "foo blah is".data

def lineAlt : List Char := "bar foo bar foo bar foo bar foo".data

def lineXY : List Char := "foo X is a Y".data

def lineAxb : List Char := "axb".data

def lineBaz : List Char := "baz".data

def lineBlah : List Char := "blah".data

def wordBar : List Char := "bar".data

theorem unescape_cons_ne {c : Char} {cs : List Char} (hb : c ≠ '\\') :
    unescape (c :: cs) = c :: unescape cs := by
  conv_lhs => rw [unescape.eq_def]
  cases cs with
  | nil => simp
  | cons d ds => simp [hb]

theorem unescape_escape {t : List Char} (h : '\n' ∉ t) : unescape (escape t) = t := by
  induction t with
  | nil => rfl
  | cons c cs ih =>
    have hc : c ≠ '\n' := fun hh => h (hh ▸ List.mem_cons_self c cs)
    have hcs : '\n' ∉ cs := fun hh => h (List.mem_cons_of_mem c hh)
    by_cases hs : specialChar c
    · simp only [escape, hs, if_pos]
      rw [unescape]
      simp [hc, ih hcs]
    · simp only [escape, hs]
      rw [if_neg (by simp [hs])]
      have hb : c ≠ '\\' := by
        intro hh
        subst hh
        simp [specialChar] at hs
      rw [unescape_cons_ne hb, ih hcs]

theorem mem_splits {s w r : List Char} : (w, r) ∈ splits s ↔ s = w ++ r := by
  induction s generalizing w r with
  | nil =>
    constructor
    · intro hm
      simp [splits] at hm
      simp [hm.1, hm.2]
    · intro h
      have h2 := List.append_eq_nil.mp h.symm
      simp [splits, h2.1, h2.2]
  | cons c cs ih =>
    simp only [splits, List.mem_cons, List.mem_map]
    constructor
    · rintro (h | ⟨p, hp, he⟩)
      · injection h with h1 h2; simp [h1, h2]
      · have := ih.mp (by rw [show p = (p.1, p.2) from rfl] at hp; exact hp)
        injection he with h1 h2
        subst h1 h2
        simp [this]
    · intro h
      cases w with
      | nil => left; simp at h; simp [h]
      | cons a as =>
        right
        simp at h
        obtain ⟨h1, h2⟩ := h
        exact ⟨(as, r), ih.mpr h2, by simp [h1]⟩

theorem splits_pairwise (s : List Char) :
    (splits s).Pairwise (fun p q => p.1.length < q.1.length) := by
  induction s with
  | nil => simp [splits]
  | cons c cs ih =>
    simp only [splits]
    constructor
    · rintro ⟨w, r⟩ hm
      simp only [List.mem_map] at hm
      obtain ⟨p, hp, he⟩ := hm
      injection he with h1 h2
      subst h1 h2
      simp
    · exact (List.pairwise_map).mpr (ih.imp (by intro a b hab; simpa using Nat.succ_lt_succ hab))

theorem firstSome_eq_some {α β : Type} {f : α → Option β} {l : List α} {b : β}
    (h : firstSome f l = some b) :
    ∃ pre x post, l = pre ++ x :: post ∧ (∀ y ∈ pre, f y = none) ∧ f x = some b := by
  induction l with
  | nil => simp [firstSome] at h
  | cons a as ih =>
    rw [firstSome] at h
    cases hfa : f a with
    | some v =>
      rw [hfa] at h
      refine ⟨[], a, as, by simp, by simp, ?_⟩
      simp at h
      rw [hfa, h]
    | none =>
      rw [hfa] at h
      obtain ⟨pre, x, post, h1, h2, h3⟩ := ih h
      refine ⟨a :: pre, x, post, by simp [h1], ?_, h3⟩
      intro y hy
      rcases List.mem_cons.mp hy with hh | hh
      · rw [hh]; exact hfa
      · exact h2 y hh

theorem firstSome_isSome_of_mem {α β : Type} {f : α → Option β} {l : List α} {x : α}
    (hx : x ∈ l) (h : (f x).isSome = true) : (firstSome f l).isSome = true := by
  induction l with
  | nil => simp at hx
  | cons a as ih =>
    rw [firstSome]
    cases hfa : f a with
    | some v => simp
    | none =>
      rcases List.mem_cons.mp hx with hh | hh
      · rw [hh] at h; rw [hfa] at h; simp at h
      · exact ih hh

theorem firstSome_eq_none {α β : Type} {f : α → Option β} {l : List α} :
    firstSome f l = none ↔ ∀ x ∈ l, f x = none := by
  induction l with
  | nil => simp [firstSome]
  | cons a as ih =>
    rw [firstSome]
    cases hfa : f a with
    | some v => simp [hfa]
    | none => simp [hfa, ih]

theorem mem_candidates {it : Item} {s w r : List Char} :
    (w, r) ∈ candidates it s ↔ s = w ++ r ∧ itemOkB it w = true := by
  cases it with
  | lit c =>
    cases s with
    | nil =>
      simp [candidates, itemOkB]
      intro h
      cases w <;> simp_all
    | cons c2 s2 =>
      by_cases hc : c2 = c
      · subst hc
        simp [candidates, itemOkB]
        constructor
        · rintro ⟨h1, h2⟩; simp [h1, h2]
        · rintro ⟨h1, h2⟩
          subst h2
          simp at h1
          simp [h1]
      · simp [candidates, hc, itemOkB]
        intro h1 h2
        subst h2
        simp at h1
        exact hc h1.1
  | tok ds m =>
    cases m with
    | non =>
      simp only [candidates, List.mem_filter, mem_splits, itemOkB]
    | greedy =>
      simp only [candidates, List.mem_reverse, List.mem_filter, mem_splits, itemOkB]
    | spaces ms =>
      simp only [candidates, List.mem_reverse, List.mem_filter, mem_splits, itemOkB]
    | spacesLit ms =>
      simp only [candidates, List.mem_reverse, List.mem_filter, mem_splits, itemOkB]

theorem candidates_pairwise (it : Item) (s : List Char) :
    (candidates it s).Pairwise (prefRel it) := by
  cases it with
  | lit c =>
    cases s with
    | nil => simp [candidates]
    | cons c2 s2 =>
      by_cases hc : c2 = c <;> simp [candidates, hc]
  | tok ds m =>
    cases m with
    | non => exact (splits_pairwise s).filter _
    | greedy =>
      rw [candidates, List.pairwise_reverse]
      exact ((splits_pairwise s).filter _).imp (by intro a b h; exact h)
    | spaces ms =>
      rw [candidates, List.pairwise_reverse]
      exact ((splits_pairwise s).filter _).imp (by intro a b h; exact h)
    | spacesLit ms =>
      rw [candidates, List.pairwise_reverse]
      exact ((splits_pairwise s).filter _).imp (by intro a b h; exact h)

theorem runItems_nil_cases {s : List Char} {asg r}
    (h : runItems [] s = some (asg, r)) : asg = [] ∧ r = s ∧ endOk s := by
  rw [runItems] at h
  by_cases h1 : s = []
  · simp [h1] at h
    simp [h1, endOk, h.1.symm, h.2.symm]
  · by_cases h2 : s = ['\n']
    · simp [h1, h2] at h
      simp [h2, endOk, h.1.symm, h.2.symm]
    · simp [h1, h2] at h

theorem runItems_valid {items : List Item} {s : List Char} {asg r}
    (h : runItems items s = some (asg, r)) : ValidAsg items s asg r := by
  induction items generalizing s asg r with
  | nil =>
    obtain ⟨h1, h2, h3⟩ := runItems_nil_cases h
    subst h1
    refine ⟨by simp, by simp, ?_, ?_⟩
    · simp [joinSnd, h2]
    · rw [h2]; exact h3
  | cons it its ih =>
    rw [runItems] at h
    obtain ⟨pre, x, post, hl, hpre, hx⟩ := firstSome_eq_some h
    cases hri : runItems its x.2 with
    | none => rw [hri] at hx; simp at hx
    | some q =>
      rw [hri] at hx
      rw [Option.map_some'] at hx
      injection hx with hx
      have hq1 : (it, x.1) :: q.1 = asg := congrArg Prod.fst hx
      have hq2 : q.2 = r := congrArg Prod.snd hx
      subst hq2
      obtain ⟨hv1, hv2, hv3, hv4⟩ := ih (show runItems its x.2 = some (q.1, q.2) from by rw [hri])
      have hxc : (x.1, x.2) ∈ candidates it s := by
        rw [hl]
        exact List.mem_append.mpr (Or.inr (List.mem_cons_self _ _))
      obtain ⟨hs, hok⟩ := mem_candidates.mp hxc
      subst hq1
      refine ⟨by simp [hv1], ?_, ?_, hv4⟩
      · intro p hp
        rcases List.mem_cons.mp hp with hh | hh
        · rw [hh]; exact hok
        · exact hv2 p hh
      · rw [joinSnd, List.append_assoc, hv3, hs]

theorem runItems_isSome_of_valid {items : List Item} {s : List Char} {asg r}
    (h : ValidAsg items s asg r) : (runItems items s).isSome = true := by
  induction items generalizing s asg r with
  | nil =>
    obtain ⟨h1, h2, h3, h4⟩ := h
    have ha : asg = [] := by
      cases asg with
      | nil => rfl
      | cons p ps => simp at h1
    subst ha
    rw [joinSnd] at h3
    simp at h3
    rw [runItems]
    rcases h4 with hh | hh
    · subst hh
      simp [h3.symm]
    · subst hh
      simp [h3.symm]
  | cons it its ih =>
    obtain ⟨h1, h2, h3, h4⟩ := h
    cases asg with
    | nil => simp at h1
    | cons p tl =>
      simp only [List.map_cons, List.cons.injEq] at h1
      obtain ⟨hp1, hp2⟩ := h1
      have hc : (p.2, joinSnd tl ++ r) ∈ candidates it s := by
        apply mem_candidates.mpr
        constructor
        · rw [← h3, joinSnd, List.append_assoc]
        · rw [← hp1]; exact h2 p (List.mem_cons_self _ _)
      have hr : (runItems its (joinSnd tl ++ r)).isSome = true :=
        ih ⟨hp2, fun q hq => h2 q (List.mem_cons_of_mem _ hq), rfl, h4⟩
      rw [runItems]
      apply firstSome_isSome_of_mem hc
      cases hri : runItems its (joinSnd tl ++ r) with
      | none => rw [hri] at hr; simp at hr
      | some v => simp

theorem runItems_least {items : List Item} {s : List Char} {asg r}
    (h : runItems items s = some (asg, r)) {asg' r'} (hv : ValidAsg items s asg' r') :
    asg = asg' ∨ ∃ a it w w' tl tl',
      asg = a ++ (it, w) :: tl ∧ asg' = a ++ (it, w') :: tl' ∧ w ≠ w' ∧
        prefersOrEq it w w' := by
  induction items generalizing s asg r asg' r' with
  | nil =>
    obtain ⟨h1, _, _, _⟩ := hv
    obtain ⟨h2, _, _⟩ := runItems_nil_cases h
    left
    rw [h2]
    cases asg' with
    | nil => rfl
    | cons p ps => simp at h1
  | cons it its ih =>
    rw [runItems] at h
    obtain ⟨pre, x, post, hl, hpre, hx⟩ := firstSome_eq_some h
    cases hri : runItems its x.2 with
    | none => rw [hri] at hx; simp at hx
    | some q =>
      rw [hri] at hx
      rw [Option.map_some'] at hx
      injection hx with hx
      have hq1 : (it, x.1) :: q.1 = asg := congrArg Prod.fst hx
      have hq2 : q.2 = r := congrArg Prod.snd hx
      subst hq2
      obtain ⟨h1, h2, h3, h4⟩ := hv
      cases asg' with
      | nil => simp at h1
      | cons p tl' =>
        simp only [List.map_cons, List.cons.injEq] at h1
        obtain ⟨hp1, hp2⟩ := h1
        have hxc : (x.1, x.2) ∈ candidates it s := by
          rw [hl]
          exact List.mem_append.mpr (Or.inr (List.mem_cons_self _ _))
        obtain ⟨hs, hok⟩ := mem_candidates.mp hxc
        have hvtl : ValidAsg its (joinSnd tl' ++ r') tl' r' :=
          ⟨hp2, fun z hz => h2 z (List.mem_cons_of_mem _ hz), rfl, h4⟩
        have hc' : (p.2, joinSnd tl' ++ r') ∈ candidates it s := by
          apply mem_candidates.mpr
          constructor
          · rw [← h3, joinSnd, List.append_assoc]
          · rw [← hp1]; exact h2 p (List.mem_cons_self _ _)
        by_cases hww : x.1 = p.2
        · have hp : p = (it, x.1) := by rw [hww, ← hp1]
          have heq2 : x.1 ++ x.2 = x.1 ++ (joinSnd tl' ++ r') := by
            rw [← hs, hww]
            exact (mem_candidates.mp hc').1
          have hrest : x.2 = joinSnd tl' ++ r' := List.append_cancel_left heq2
          rcases ih (show runItems its x.2 = some (q.1, q.2) from by rw [hri])
              (hrest ▸ hvtl) with heq | ⟨a, it2, w, w', tl2, tl2', ha1, ha2, hww2, hpref⟩
          · left
            rw [← hq1, heq, hp]
          · right
            refine ⟨(it, x.1) :: a, it2, w, w', tl2, tl2', ?_, ?_, hww2, hpref⟩
            · rw [← hq1, ha1]; rfl
            · rw [hp, ha2]; rfl
        · right
          refine ⟨[], it, x.1, p.2, q.1, tl', by rw [← hq1]; rfl, by rw [← hp1]; rfl, hww, ?_⟩
          have hmem := hc'
          rw [hl] at hmem
          rcases List.mem_append.mp hmem with hin | hin
          · exfalso
            have := hpre _ hin
            have hsome : (runItems its (joinSnd tl' ++ r')).isSome = true :=
              runItems_isSome_of_valid hvtl
            cases hrun : runItems its (joinSnd tl' ++ r') with
            | none => rw [hrun] at hsome; simp at hsome
            | some v => rw [hrun] at this; simp at this
          · rcases List.mem_cons.mp hin with hin2 | hin2
            · exact absurd (congrArg Prod.fst hin2.symm) hww
            · have hpw : (candidates it s).Pairwise (prefRel it) := candidates_pairwise it s
              have hsub : (x :: post).Sublist (candidates it s) := by
                rw [hl]
                exact List.sublist_append_right _ _
              have hrel := List.rel_of_pairwise_cons (hpw.sublist hsub) hin2
              cases it with
              | lit c =>
                exfalso
                have he1 : x.1 = [c] := by simpa [itemOkB] using hok
                have he2 : p.2 = [c] := by
                  have := h2 p (List.mem_cons_self _ _)
                  rw [hp1] at this
                  simpa [itemOkB] using this
                exact hww (he1.trans he2.symm)
              | tok ds m =>
                cases m with
                | non => simpa [prefRel, prefersOrEq] using Nat.le_of_lt hrel
                | greedy => simpa [prefRel, prefersOrEq] using Nat.le_of_lt hrel
                | spaces ms => simpa [prefRel, prefersOrEq] using Nat.le_of_lt hrel
                | spacesLit ms => simpa [prefRel, prefersOrEq] using Nat.le_of_lt hrel

theorem dropWhile_head_false {p : Char → Bool} {l : List Char} {d : Char} {ds : List Char}
    (h : l.dropWhile p = d :: ds) : p d = false := by
  induction l with
  | nil => simp [List.dropWhile] at h
  | cons a as ih =>
    rw [List.dropWhile_cons] at h
    by_cases hp : p a
    · rw [if_pos hp] at h; exact ih h
    · rw [if_neg hp] at h
      injection h with h1 h2
      subst h1
      simpa using hp

theorem slang_count {n : Nat} {w : List Char} :
    SLang n w ↔ w.countP wsChar = n := by
  constructor
  · intro h
    induction h with
    | base hw =>
      exact List.countP_eq_zero.mpr (by intro a ha; simp [hw a ha])
    | step ha hc hb ih =>
      rename_i a c b n2
      rw [List.countP_append, List.countP_cons]
      rw [List.countP_eq_zero.mpr (by intro z hz; simp [ha z hz])]
      simp [hc, ih]
  · intro h
    induction n generalizing w with
    | zero =>
      refine SLang.base ?_
      intro c hc
      by_contra hh
      have hc2 : wsChar c = true := by simpa using hh
      have hpos : 0 < w.countP wsChar := List.countP_pos_iff.mpr ⟨c, hc, hc2⟩
      omega
    | succ k ih =>
      have hpos : 0 < w.countP wsChar := by rw [h]; exact Nat.succ_pos k
      obtain ⟨c, hc, hwc⟩ := List.countP_pos_iff.mp hpos
      have hwsplit := List.takeWhile_append_dropWhile (p := fun z => !wsChar z) (l := w)
      have hdrop : w.dropWhile (fun z => !wsChar z) ≠ [] := by
        intro hh
        have hz0 : w.countP wsChar = 0 := by
          rw [← hwsplit, hh]
          simp only [List.append_nil]
          refine List.countP_eq_zero.mpr ?_
          intro z hz
          simpa using List.mem_takeWhile_imp hz
        omega
      cases hd : w.dropWhile (fun z => !wsChar z) with
      | nil => exact absurd hd hdrop
      | cons d ds =>
        have hdw : wsChar d = true := by
          have h5 := dropWhile_head_false hd
          simpa using h5
        have hcount : ds.countP wsChar = k := by
          have h8 : w.countP wsChar =
              (w.takeWhile fun z => !wsChar z).countP wsChar + (d :: ds).countP wsChar := by
            conv_lhs => rw [← hwsplit, hd]
            rw [List.countP_append]
          rw [(List.countP_eq_zero (l := w.takeWhile fun z => !wsChar z)).mpr
            (fun z hz => by simpa using List.mem_takeWhile_imp hz)] at h8
          rw [List.countP_cons] at h8
          simp [hdw] at h8
          rw [h] at h8
          omega
        have hb := ih hcount
        have hshape := SLang.step (a := w.takeWhile (fun z => !wsChar z)) (c := d) (b := ds)
          (fun z hz => by simpa using List.mem_takeWhile_imp hz) hdw hb
        rw [← hd, hwsplit] at hshape
        exact hshape

theorem lookupGroup_some_mem {gs : List (List Char × List Char)} {n w : List Char}
    (h : lookupGroup gs n = some w) : (n, w) ∈ gs := by
  induction gs with
  | nil => simp [lookupGroup] at h
  | cons p ps ih =>
    rw [show p = (p.1, p.2) from rfl, lookupGroup] at h
    by_cases hn : p.1 = n
    · rw [if_pos hn] at h
      injection h with h1
      subst h1 hn
      exact List.mem_cons_self _ _
    · rw [if_neg hn] at h
      exact List.mem_cons_of_mem _ (ih h)

theorem lookupGroup_isSome_of_mem {gs : List (List Char × List Char)} {n : List Char}
    (h : n ∈ gs.map Prod.fst) : (lookupGroup gs n).isSome = true := by
  induction gs with
  | nil => simp at h
  | cons p ps ih =>
    rw [show p = (p.1, p.2) from rfl, lookupGroup]
    by_cases hn : p.1 = n
    · rw [if_pos hn]; simp
    · rw [if_neg hn]
      apply ih
      simp at h
      rcases h with hh | hh
      · exact absurd hh.symm hn
      · simpa using hh

theorem lookupGroup_none_of_not_mem {gs : List (List Char × List Char)} {n : List Char}
    (h : n ∉ gs.map Prod.fst) : lookupGroup gs n = none := by
  induction gs with
  | nil => rfl
  | cons p ps ih =>
    rw [show p = (p.1, p.2) from rfl, lookupGroup]
    simp only [List.map_cons, List.mem_cons] at h
    push_neg at h
    rw [if_neg (fun hh => h.1 hh.symm)]
    exact ih h.2

theorem groupsOf_names {asg : List (Item × List Char)} {items : List Item}
    (h : asg.map Prod.fst = items) : (groupsOf asg).map Prod.fst = declaredGroups items := by
  induction asg generalizing items with
  | nil => subst h; rfl
  | cons p ps ih =>
    subst h
    rw [groupsOf, declaredGroups]
    simp only [List.filterMap_cons, List.map_cons]
    cases hp : p.1 with
    | lit c => simpa [groupsOf, declaredGroups] using ih rfl
    | tok ds m => simpa [groupsOf, declaredGroups] using ih rfl

theorem replaceTokens_ok {esc : List Char} {seen : List (List Char)}
    {ps out : List Item} (h : replaceTokens esc seen ps = Except.ok out) :
    out = ps ∧ (dsOfItems ps).Nodup ∧ ∀ d ∈ dsOfItems ps, d ∉ seen := by
  induction ps generalizing seen out with
  | nil =>
    rw [replaceTokens] at h
    injection h with h1
    simp [h1.symm, dsOfItems]
  | cons it ps2 ih =>
    cases it with
    | lit c =>
      rw [replaceTokens] at h
      cases hr : replaceTokens esc seen ps2 with
      | error e => rw [hr] at h; simp [Except.map] at h
      | ok out2 =>
        rw [hr] at h
        simp only [Except.map] at h
        injection h with h1
        obtain ⟨ho, hn, hd⟩ := ih hr
        subst ho
        refine ⟨h1.symm, ?_, ?_⟩
        · simpa [dsOfItems] using hn
        · simpa [dsOfItems] using hd
    | tok ds m =>
      rw [replaceTokens] at h
      by_cases hs : ds ∈ seen
      · rw [if_pos hs] at h; simp at h
      · rw [if_neg hs] at h
        cases hr : replaceTokens esc (ds :: seen) ps2 with
        | error e => rw [hr] at h; simp [Except.map] at h
        | ok out2 =>
          rw [hr] at h
          simp only [Except.map] at h
          injection h with h1
          obtain ⟨ho, hn, hd⟩ := ih hr
          subst ho
          refine ⟨h1.symm, ?_, ?_⟩
          · simp only [dsOfItems, List.filterMap_cons]
            refine List.Nodup.cons ?_ (by simpa [dsOfItems] using hn)
            intro hmem
            exact (hd ds (by simpa [dsOfItems] using hmem)) (List.mem_cons_self _ _)
          · intro d hd2
            simp only [dsOfItems, List.filterMap_cons, List.mem_cons] at hd2
            rcases hd2 with hh | hh
            · subst hh; exact hs
            · intro hcon
              exact (hd d (by simpa [dsOfItems] using hh)) (List.mem_cons_of_mem _ hcon)

theorem replaceTokens_shape {esc : List Char} {seen : List (List Char)} {ps : List Item} :
    (∃ out, replaceTokens esc seen ps = Except.ok out) ∨
    ∃ ds m, Item.tok ds m ∈ ps ∧ replaceTokens esc seen ps =
      Except.error (GrepError.duplicateTokenIndex (unescape (tokenEsc ds m)) (unescape esc)) := by
  induction ps generalizing seen with
  | nil => exact Or.inl ⟨[], rfl⟩
  | cons it ps2 ih =>
    cases it with
    | lit c =>
      rcases @ih seen with ⟨out, hout⟩ | ⟨ds, m, hmem, herr⟩
      · exact Or.inl ⟨Item.lit c :: out, by rw [replaceTokens, hout]; rfl⟩
      · exact Or.inr ⟨ds, m, List.mem_cons_of_mem _ hmem, by rw [replaceTokens, herr]; rfl⟩
    | tok ds m =>
      by_cases hs : ds ∈ seen
      · exact Or.inr ⟨ds, m, List.mem_cons_self _ _, by rw [replaceTokens, if_pos hs]⟩
      · rcases @ih (ds :: seen) with ⟨out, hout⟩ | ⟨ds2, m2, hmem, herr⟩
        · exact Or.inl ⟨Item.tok ds m :: out, by rw [replaceTokens, if_neg hs, hout]; rfl⟩
        · exact Or.inr ⟨ds2, m2, List.mem_cons_of_mem _ hmem,
            by rw [replaceTokens, if_neg hs, herr]; rfl⟩

theorem sreCompile_error_shape {ps : List Item} {e : GrepError}
    (h : sreCompile ps = Except.error e) : e = GrepError.repetitionTooLarge := by
  induction ps with
  | nil => rw [sreCompile] at h; simp at h
  | cons it ps2 ih =>
    cases it with
    | lit c =>
      rw [sreCompile] at h
      cases hr : sreCompile ps2 with
      | error e2 =>
        rw [hr] at h
        simp only [Except.map] at h
        injection h with h1
        exact ih (h1 ▸ hr)
      | ok out => rw [hr] at h; simp [Except.map] at h
    | tok ds m =>
      cases m with
      | non =>
        rw [sreCompile] at h
        cases hr : sreCompile ps2 with
        | error e2 =>
          rw [hr] at h
          simp only [Except.map] at h
          injection h with h1
          exact ih (h1 ▸ hr)
        | ok out => rw [hr] at h; simp [Except.map] at h
      | greedy =>
        rw [sreCompile] at h
        cases hr : sreCompile ps2 with
        | error e2 =>
          rw [hr] at h
          simp only [Except.map] at h
          injection h with h1
          exact ih (h1 ▸ hr)
        | ok out => rw [hr] at h; simp [Except.map] at h
      | spaces ms =>
        rw [sreCompile] at h
        by_cases ha : ms.all Char.isDigit
        · rw [if_pos ha] at h
          by_cases hb : MAXREPEAT ≤ digitsVal ms
          · rw [if_pos hb] at h
            injection h with h1
            exact h1.symm
          · rw [if_neg hb] at h
            cases hr : sreCompile ps2 with
            | error e2 =>
              rw [hr] at h
              simp only [Except.map] at h
              injection h with h1
              exact ih (h1 ▸ hr)
            | ok out => rw [hr] at h; simp [Except.map] at h
        · rw [if_neg ha] at h
          cases hr : sreCompile ps2 with
          | error e2 =>
            rw [hr] at h
            simp only [Except.map] at h
            injection h with h1
            exact ih (h1 ▸ hr)
          | ok out => rw [hr] at h; simp [Except.map] at h
      | spacesLit ms =>
        rw [sreCompile] at h
        cases hr : sreCompile ps2 with
        | error e2 =>
          rw [hr] at h
          simp only [Except.map] at h
          injection h with h1
          exact ih (h1 ▸ hr)
        | ok out => rw [hr] at h; simp [Except.map] at h

theorem map_pattern_to_re_error_shape {p : List Char} {e : GrepError}
    (h : map_pattern_to_re p = Except.error e) :
    (∃ a b, e = GrepError.duplicateTokenIndex a b) ∨ e = GrepError.repetitionTooLarge := by
  rcases @replaceTokens_shape p [] (tokenize p) with
    ⟨out, hout⟩ | ⟨ds, m, hmem, herr⟩
  · rw [map_pattern_to_re, hout] at h
    exact Or.inr (sreCompile_error_shape h)
  · rw [map_pattern_to_re, herr] at h
    injection h with h1
    exact Or.inl ⟨_, _, h1.symm⟩

theorem mapCompile_ok {ts : List (List Char)} {rs : List (List Item)}
    (h : mapCompile ts = Except.ok rs) :
    rs.length = ts.length ∧ ∀ i (hi : i < ts.length) (hj : i < rs.length),
      map_pattern_to_re (ts.get ⟨i, hi⟩) = Except.ok (rs.get ⟨i, hj⟩) := by
  induction ts generalizing rs with
  | nil =>
    rw [mapCompile] at h
    injection h with h1
    subst h1
    exact ⟨rfl, by intro i hi; simp at hi⟩
  | cons t ts2 ih =>
    rw [mapCompile] at h
    cases hc : map_pattern_to_re t with
    | error e => rw [hc] at h; simp at h
    | ok items =>
      rw [hc] at h
      cases hm : mapCompile ts2 with
      | error e => rw [hm] at h; simp at h
      | ok rs2 =>
        rw [hm] at h
        injection h with h1
        subst h1
        obtain ⟨hl, hg⟩ := ih hm
        refine ⟨by simp [hl], ?_⟩
        intro i hi hj
        cases i with
        | zero => simpa using hc
        | succ i2 =>
          simp only [List.get_cons_succ]
          exact hg i2 (by simpa using hi) (by simpa using hj)

theorem mapCompile_error_shape {ts : List (List Char)} {e : GrepError}
    (h : mapCompile ts = Except.error e) :
    (∃ a b, e = GrepError.duplicateTokenIndex a b) ∨ e = GrepError.repetitionTooLarge := by
  induction ts with
  | nil => rw [mapCompile] at h; simp at h
  | cons t ts2 ih =>
    rw [mapCompile] at h
    cases hc : map_pattern_to_re t with
    | error e2 =>
      rw [hc] at h
      injection h with h1
      subst h1
      exact map_pattern_to_re_error_shape hc
    | ok items =>
      rw [hc] at h
      cases hm : mapCompile ts2 with
      | error e2 =>
        rw [hm] at h
        injection h with h1
        subst h1
        exact ih hm
      | ok rs2 => rw [hm] at h; simp at h

theorem mapCompile_error_of_mem {ts : List (List Char)} {t : List Char} {e : GrepError}
    (hmem : t ∈ ts) (h : map_pattern_to_re t = Except.error e) :
    ∃ e2, mapCompile ts = Except.error e2 := by
  induction ts with
  | nil => simp at hmem
  | cons t2 ts2 ih =>
    rw [mapCompile]
    cases hc : map_pattern_to_re t2 with
    | error e2 => exact ⟨e2, rfl⟩
    | ok items =>
      rcases List.mem_cons.mp hmem with hh | hh
      · subst hh; rw [hc] at h; simp at h
      · obtain ⟨e3, he3⟩ := ih hh
        rw [he3]
        exact ⟨e3, rfl⟩

theorem grepperInit_ok {ps : List (List Char)} {g : Grepper}
    (h : grepperInit ps = Except.ok g) :
    g.patterns = ps ∧ mapCompile (ps.map escape) = Except.ok g.regexes := by
  rw [grepperInit] at h
  by_cases hp : ps = []
  · rw [if_pos hp] at h; simp at h
  · rw [if_neg hp] at h
    cases hm : mapCompile (ps.map escape) with
    | error e => rw [hm] at h; simp [Except.map] at h
    | ok rs =>
      rw [hm] at h
      simp only [Except.map] at h
      injection h with h1
      subst h1
      exact ⟨rfl, rfl⟩

theorem matchFirst_none_iff {l : List (List Item × List Char)} {s : List Char} :
    matchFirst l s = none ↔ ∀ p ∈ l, runItems p.1 s = none := by
  induction l with
  | nil => simp [matchFirst]
  | cons x xs ih =>
    rw [show x = (x.1, x.2) from rfl, matchFirst]
    cases hr : runItems x.1 s with
    | some v => simp [hr]
    | none => simp [hr, ih]

theorem matchFirst_some {l : List (List Item × List Char)} {s : List Char} {m : Match}
    (h : matchFirst l s = some m) :
    ∃ pre x post asg r, l = pre ++ x :: post ∧ (∀ y ∈ pre, runItems y.1 s = none) ∧
      runItems x.1 s = some (asg, r) ∧
      m = { groups := groupsOf asg, string := s, pattern := x.2 } := by
  induction l with
  | nil => simp [matchFirst] at h
  | cons x xs ih =>
    rw [show x = (x.1, x.2) from rfl, matchFirst] at h
    cases hr : runItems x.1 s with
    | some v =>
      rw [hr] at h
      injection h with h1
      exact ⟨[], x, xs, v.1, v.2, by simp, by simp, by rw [hr], h1.symm⟩
    | none =>
      rw [hr] at h
      obtain ⟨pre, y, post, asg, r, h1, h2, h3, h4⟩ := ih h
      refine ⟨x :: pre, y, post, asg, r, by simp [h1], ?_, h3, h4⟩
      intro z hz
      rcases List.mem_cons.mp hz with hh | hh
      · rw [hh]; exact hr
      · exact h2 z hh

theorem matchTokenAt_some {cs ds : List Char} {m : TokMod} {r : List Char}
    (h : matchTokenAt cs = some (ds, m, r)) :
    cs = tokenEsc ds m ++ r := by
  unfold matchTokenAt at h
  split at h
  case _ rest =>
    have hsplit := List.takeWhile_append_dropWhile (p := ndDigit) (l := rest)
    split at h
    · exact absurd h (by simp)
    · rename_i heq hne
      injection h with h3
      injection h3 with hds h4
      injection h4 with hm hr
      subst hds hm hr
      conv_lhs => rw [← hsplit, heq]
      simp [tokenEsc, modEsc]
    · rename_i ms r2 heq1 hne1
      have hsplit2 := List.takeWhile_append_dropWhile (p := ndDigit) (l := r2)
      split at h
      · exact absurd h (by simp)
      · rename_i heq2 hne2
        injection h with h3
        injection h3 with hds h4
        injection h4 with hm hr
        subst hds hm hr
        conv_lhs => rw [← hsplit, heq1, ← hsplit2, heq2]
        simp [tokenEsc, modEsc]
      · exact absurd h (by simp)
    · rename_i heq hne
      injection h with h3
      injection h3 with hds h4
      injection h4 with hm hr
      subst hds hm hr
      conv_lhs => rw [← hsplit, heq]
      simp [tokenEsc, modEsc]
    · exact absurd h (by simp)
  case _ => exact absurd h (by simp)

theorem tokenizeF_nil {f : Nat} : tokenizeF f [] = [] := by
  cases f with
  | zero => rfl
  | succ f2 => rfl

theorem tokenizeF_succ_some {f : Nat} {cs ds : List Char} {m : TokMod} {r : List Char}
    (hm : matchTokenAt cs = some (ds, m, r)) :
    tokenizeF (f + 1) cs = Item.tok ds m :: tokenizeF f r := by
  simp only [tokenizeF, hm]

theorem tokenizeF_succ_bs {f : Nat} {c : Char} {cs2 : List Char}
    (hm : matchTokenAt ('\\' :: c :: cs2) = none) :
    tokenizeF (f + 1) ('\\' :: c :: cs2) = Item.lit c :: tokenizeF f cs2 := by
  simp only [tokenizeF, hm]

theorem tokenizeF_succ_plain {f : Nat} {c : Char} {cs2 : List Char}
    (hm : matchTokenAt (c :: cs2) = none) (hc : c ≠ '\\' ∨ cs2 = []) :
    tokenizeF (f + 1) (c :: cs2) = Item.lit c :: tokenizeF f cs2 := by
  simp only [tokenizeF, hm]
  split
  · rename_i h1
    simp at h1
  · rename_i c1 cs1 h1
    injection h1 with h2 h3
    rcases hc with hh | hh
    · exact absurd h2 hh
    · rw [hh] at h3
      simp at h3
  · rename_i c1 cs1 h1
    injection h1 with h2 h3
    rw [h2, h3]

theorem tokenizeF_eq_len (f : Nat) : ∀ cs : List Char, cs.length ≤ f →
    tokenizeF f cs = tokenize cs := by
  induction f using Nat.strong_induction_on with
  | _ f ih =>
    intro cs hlen
    cases f with
    | zero =>
      have : cs = [] := by
        cases cs with
        | nil => rfl
        | cons c cs2 => simp at hlen
      subst this
      rfl
    | succ f2 =>
      cases cs with
      | nil => rw [tokenizeF_nil]; rfl
      | cons c cs2 =>
        simp only [List.length_cons] at hlen
        rw [tokenize]
        simp only [List.length_cons]
        cases hm : matchTokenAt (c :: cs2) with
        | some x =>
          obtain ⟨ds, m, r⟩ := x
          have hb := matchTokenAt_some hm
          have hlen2 : cs2.length + 1 = (tokenEsc ds m).length + r.length := by
            have := congrArg List.length hb
            simpa using this
          have h5 : 5 ≤ (tokenEsc ds m).length := by
            simp [tokenEsc]
            omega
          rw [tokenizeF_succ_some hm, tokenizeF_succ_some hm]
          have e1 := ih f2 (by omega) r (by omega)
          have e2 := ih cs2.length (by omega) r (by omega)
          rw [e1, e2]
        | none =>
          by_cases hbs : c = '\\'
          · subst hbs
            cases cs2 with
            | nil =>
              rw [tokenizeF_succ_plain hm (Or.inr rfl), tokenizeF_succ_plain hm (Or.inr rfl)]
              rw [tokenizeF_nil, tokenizeF_nil]
            | cons c1 cs1 =>
              simp only [List.length_cons] at hlen
              rw [tokenizeF_succ_bs hm]
              rw [show (c1 :: cs1).length = cs1.length + 1 from rfl]
              rw [tokenizeF_succ_bs hm]
              have e1 := ih f2 (by omega) cs1 (by omega)
              have e2 := ih (cs1.length + 1) (by omega) cs1 (by omega)
              rw [e1, e2]
          · rw [tokenizeF_succ_plain hm (Or.inl hbs), tokenizeF_succ_plain hm (Or.inl hbs)]
            have e1 := ih f2 (by omega) cs2 (by omega)
            have e2 := ih cs2.length (by omega) cs2 (by omega)
            rw [e1, e2]

theorem tokenize_some {cs ds : List Char} {m : TokMod} {r : List Char}
    (hm : matchTokenAt cs = some (ds, m, r)) :
    tokenize cs = Item.tok ds m :: tokenize r := by
  have hb := matchTokenAt_some hm
  have h5 : 5 ≤ (tokenEsc ds m).length := by
    simp [tokenEsc]
    omega
  have hlen2 : cs.length = (tokenEsc ds m).length + r.length := by
    have := congrArg List.length hb
    simpa using this
  rw [tokenize]
  cases hl : cs.length with
  | zero => omega
  | succ n =>
    rw [tokenizeF_succ_some hm]
    rw [tokenizeF_eq_len n r (by omega)]

theorem tokenize_nil : tokenize [] = [] := rfl

theorem tokenize_bs {c : Char} {cs2 : List Char}
    (hm : matchTokenAt ('\\' :: c :: cs2) = none) :
    tokenize ('\\' :: c :: cs2) = Item.lit c :: tokenize cs2 := by
  rw [tokenize]
  rw [show ('\\' :: c :: cs2).length = cs2.length + 1 + 1 from by simp]
  rw [tokenizeF_succ_bs hm]
  rw [tokenizeF_eq_len (cs2.length + 1) cs2 (by omega)]

theorem tokenize_plain {c : Char} {cs2 : List Char}
    (hm : matchTokenAt (c :: cs2) = none) (hc : c ≠ '\\' ∨ cs2 = []) :
    tokenize (c :: cs2) = Item.lit c :: tokenize cs2 := by
  rw [tokenize]
  rw [show (c :: cs2).length = cs2.length + 1 from rfl]
  rw [tokenizeF_succ_plain hm hc]
  rw [tokenizeF_eq_len cs2.length cs2 (by omega)]

theorem unescape_append_no_bs {a b : List Char} (h : '\\' ∉ a) :
    unescape (a ++ b) = a ++ unescape b := by
  induction a with
  | nil => rfl
  | cons c cs ih =>
    have hc : c ≠ '\\' := fun hh => h (hh ▸ List.mem_cons_self c cs)
    rw [List.cons_append, unescape_cons_ne hc, ih (fun hh => h (List.mem_cons_of_mem c hh))]
    rfl

theorem unescape_tokenEsc {ds : List Char} {m : TokMod}
    (hds : '\\' ∉ ds) (hmod : '\\' ∉ modEsc m) :
    unescape (tokenEsc ds m) = tokenText ds m := by
  rw [tokenEsc, unescape_cons_ne (by decide), unescape]
  rw [if_neg (by decide)]
  rw [show ds ++ modEsc m ++ ['\\', '\x7d'] = (ds ++ modEsc m) ++ ['\\', '\x7d'] from by simp]
  rw [unescape_append_no_bs (by
    intro hh
    rcases List.mem_append.mp hh with h1 | h1
    · exact hds h1
    · exact hmod h1)]
  rw [show unescape ['\\', '\x7d'] = ['\x7d'] from rfl]
  simp [tokenText]

theorem tokenizeF_tok_digits {f : Nat} {cs ds : List Char} {m : TokMod}
    (h : Item.tok ds m ∈ tokenizeF f cs) :
    (∀ c ∈ ds, ndDigit c = true) ∧
      ∀ ms, (m = TokMod.spaces ms ∨ m = TokMod.spacesLit ms) →
        ∀ c ∈ ms, ndDigit c = true := by
  induction f generalizing cs with
  | zero => simp [tokenizeF] at h
  | succ f2 ih =>
    cases hm : matchTokenAt cs with
    | some x =>
      obtain ⟨ds2, m2, r⟩ := x
      rw [tokenizeF_succ_some hm] at h
      rcases List.mem_cons.mp h with hh | hh
      · injection hh with h1 h2
        subst h1 h2
        unfold matchTokenAt at hm
        split at hm
        · split at hm
          · simp at hm
          · injection hm with h3
            injection h3 with h4 h5
            injection h5 with h6 h7
            subst h4 h6
            refine ⟨fun c hc => List.mem_takeWhile_imp hc, ?_⟩
            intro ms hms
            rcases hms with hh2 | hh2 <;> simp at hh2
          · split at hm
            · simp at hm
            · injection hm with h3
              injection h3 with h4 h5
              injection h5 with h6 h7
              subst h4 h6
              refine ⟨fun c hc => List.mem_takeWhile_imp hc, ?_⟩
              intro ms hms
              rcases hms with hh2 | hh2
              · injection hh2 with h8
                subst h8
                exact fun c hc => List.mem_takeWhile_imp hc
              · simp at hh2
            · simp at hm
          · injection hm with h3
            injection h3 with h4 h5
            injection h5 with h6 h7
            subst h4 h6
            refine ⟨fun c hc => List.mem_takeWhile_imp hc, ?_⟩
            intro ms hms
            rcases hms with hh2 | hh2 <;> simp at hh2
          · simp at hm
        · simp at hm
      · exact ih hh
    | none =>
      cases cs with
      | nil => rw [tokenizeF_nil] at h; simp at h
      | cons c cs2 =>
        by_cases hbs : c = '\\'
        · subst hbs
          cases cs2 with
          | nil =>
            rw [tokenizeF_succ_plain hm (Or.inr rfl)] at h
            rcases List.mem_cons.mp h with hh | hh
            · simp at hh
            · exact ih hh
          | cons c1 cs1 =>
            rw [tokenizeF_succ_bs hm] at h
            rcases List.mem_cons.mp h with hh | hh
            · simp at hh
            · exact ih hh
        · rw [tokenizeF_succ_plain hm (Or.inl hbs)] at h
          rcases List.mem_cons.mp h with hh | hh
          · simp at hh
          · exact ih hh

theorem tokenize_tok_digits {cs ds : List Char} {m : TokMod}
    (h : Item.tok ds m ∈ tokenize cs) :
    (∀ c ∈ ds, ndDigit c = true) ∧
      ∀ ms, (m = TokMod.spaces ms ∨ m = TokMod.spacesLit ms) →
        ∀ c ∈ ms, ndDigit c = true := by
  rw [tokenize] at h
  exact tokenizeF_tok_digits h

theorem runItems_consumes {items : List Item} {s : List Char} {asg r}
    (hnl : '\n' ∉ s) (h : runItems items s = some (asg, r)) : joinSnd asg = s := by
  obtain ⟨h1, h2, h3, h4⟩ := runItems_valid h
  rcases h4 with hh | hh
  · subst hh; simpa using h3
  · subst hh
    exfalso
    apply hnl
    rw [← h3]
    exact List.mem_append.mpr (Or.inr (by simp))

theorem runItems_all_lit {cs s : List Char} :
    (runItems (cs.map Item.lit) s).isSome = true ↔ (s = cs ∨ s = cs ++ ['\n']) := by
  induction cs generalizing s with
  | nil =>
    rw [List.map_nil, runItems]
    by_cases h1 : s = []
    · simp [h1]
    · by_cases h2 : s = ['\n']
      · simp [h1, h2]
      · simp [h1, h2]
  | cons c cs2 ih =>
    rw [List.map_cons, runItems]
    cases s with
    | nil =>
      rw [show candidates (Item.lit c) [] = [] from rfl, firstSome]
      simp
    | cons a s2 =>
      by_cases hac : a = c
      · subst hac
        rw [show candidates (Item.lit a) (a :: s2) = [([a], s2)] from by simp [candidates]]
        rw [firstSome]
        cases hr : runItems (cs2.map Item.lit) s2 with
        | some q =>
          have hih := ih (s := s2)
          rw [hr] at hih
          simp only [Option.isSome_some, true_iff] at hih
          simp only [hr, Option.map_some']
          constructor
          · intro _
            rcases hih with hh | hh
            · left; rw [hh]
            · right; rw [hh]; rfl
          · intro _; simp
        | none =>
          have hih := ih (s := s2)
          rw [hr] at hih
          simp only [Option.isSome_none, Bool.false_eq_true, false_iff] at hih
          push_neg at hih
          obtain ⟨hh1, hh2⟩ := hih
          simp only [hr, Option.map_none']
          rw [firstSome]
          constructor
          · intro hh; simp at hh
          · intro hh
            exfalso
            rcases hh with h3 | h3
            · injection h3 with h4 h5; exact hh1 h5
            · injection h3 with h4 h5
              exact hh2 h5
      · rw [show candidates (Item.lit c) (a :: s2) = [] from by simp [candidates, hac]]
        rw [firstSome]
        constructor
        · intro hh; simp at hh
        · intro hh
          exfalso
          rcases hh with h3 | h3
          · injection h3 with h4 h5; exact hac h4
          · injection h3 with h4 h5; exact hac h4

/-- C8 counterexample: a single template whose `S` count reaches the
engine's MAXREPEAT bound makes construction fail with the repetition-count
overflow, which is neither the no-patterns error nor a duplicate-index
error — so a non-empty build can fail with an error other than
DuplicateTokenIndex. -/
theorem repetition_overflow_not_duplicate :
    grepperInit [tmplOverflow] = Except.error GrepError.repetitionTooLarge ∧
    (∀ a b, GrepError.repetitionTooLarge ≠ GrepError.duplicateTokenIndex a b) ∧
    GrepError.repetitionTooLarge ≠ GrepError.noPatterns := by
  refine ⟨by decide, ?_, ?_⟩
  · intro a b h
    cases h
  · intro h
    cases h

/-- C8 (amended): constructing a pattern set from zero templates always
fails with the no-patterns error, and constructing from at least one
template never raises that error: any failure is then a duplicate-token-
index error from an individual template, or the regex engine's
repetition-count overflow from an oversized `S` count. -/
theorem no_patterns_error :
    grepperInit [] = Except.error GrepError.noPatterns ∧
    ∀ ps : List (List Char), ps ≠ [] →
      (∃ g, grepperInit ps = Except.ok g) ∨
      (∃ a b, grepperInit ps = Except.error (GrepError.duplicateTokenIndex a b)) ∨
      grepperInit ps = Except.error GrepError.repetitionTooLarge := by
  refine ⟨rfl, ?_⟩
  intro ps hps
  rw [grepperInit, if_neg hps]
  cases hm : mapCompile (ps.map escape) with
  | ok rs => exact Or.inl ⟨_, rfl⟩
  | error e =>
    rcases mapCompile_error_shape hm with ⟨a, b, hab⟩ | hab
    · exact Or.inr (Or.inl ⟨a, b, by rw [hab]; rfl⟩)
    · exact Or.inr (Or.inr (by rw [hab]; rfl))

/-- Witness for C8 at a concrete non-empty template list. -/
theorem no_patterns_error_w :
    (∃ g, grepperInit [tmplFoo] = Except.ok g) ∨
    (∃ a b, grepperInit [tmplFoo] = Except.error (GrepError.duplicateTokenIndex a b)) ∨
    grepperInit [tmplFoo] = Except.error GrepError.repetitionTooLarge :=
  no_patterns_error.2 [tmplFoo] (by decide)

/-- C9: whenever `match_line` succeeds, the result's `line` accessor returns
exactly the input line (`re.Match.string` is the whole subject string). -/
theorem match_line_preserves_input :
    ∀ (g : Grepper) (s : List Char) (m : Match),
      g.match_line s = some m → m.line = s := by
  intro g s m h
  obtain ⟨pre, x, post, asg, r, h1, h2, h3, h4⟩ := matchFirst_some h
  rw [h4]
  rfl

/-- Witness for C9 at a concrete pattern set and line. -/
theorem match_line_preserves_input_w :
    Match.line { groups := [], string := lineBaz, pattern := tmplBaz } = lineBaz :=
  match_line_preserves_input ⟨[tmplBaz], [List.map Item.lit tmplBaz]⟩ lineBaz
    { groups := [], string := lineBaz, pattern := tmplBaz } (by decide)

/-- C2: matching is anchored at both ends — a successful match consumes the
entire line (for lines, which contain no newline); the pattern from
`foo %\x7b0\x7d is a %\x7b1\x7d` matches the two spec lines and rejects
the three non-matching ones. -/
theorem match_consumes_entire_line :
    (∀ ps g, grepperInit ps = Except.ok g → ∀ items, items ∈ g.regexes →
      ∀ s asg r, '\n' ∉ s → runItems items s = some (asg, r) → joinSnd asg = s) ∧
    buildMatches [tmplBasic] lineBar = true ∧
    buildMatches [tmplBasic] lineBoat = true ∧
    buildMatches [tmplBasic] lineIsBar = false ∧
    buildMatches [tmplBasic] lineFooBlah = false ∧
    buildMatches [tmplBasic] lineFooBlahIs = false := by
  refine ⟨?_, by decide, by decide, by decide, by decide, by decide⟩
  intro ps g hg items hi s asg r hnl h
  exact runItems_consumes hnl h

/-- Witness for C2 at a concrete pattern set, line and assignment. -/
theorem match_consumes_entire_line_w :
    joinSnd [(Item.lit 'f', ['f']), (Item.lit 'o', ['o']), (Item.lit 'o', ['o'])] = tmplFoo :=
  match_consumes_entire_line.1 [tmplFoo] ⟨[tmplFoo], [List.map Item.lit tmplFoo]⟩ (by decide)
    (List.map Item.lit tmplFoo) (by decide) tmplFoo
    [(Item.lit 'f', ['f']), (Item.lit 'o', ['o']), (Item.lit 'o', ['o'])] [] (by decide) (by decide)

/-- C4: an `S n` token capture matches exactly the strings of the shape
"run of non-space, then n times (one whitespace then a run of non-space)",
i.e. the strings with exactly n whitespace characters; concretely the
spaces-limited spec pattern accepts the 0-internal-space line and rejects
the 2-internal-space line. -/
theorem spaces_modifier_language :
    (∀ d ds s w r, ((w, r) ∈ candidates (Item.tok d (TokMod.spaces ds)) s) ↔
      (s = w ++ r ∧ SLang (digitsVal ds) w)) ∧
    buildMatches [tmplS0] lineBar = true ∧
    buildMatches [tmplS0] lineBoat = false := by
  refine ⟨?_, by decide, by decide⟩
  intro d ds s w r
  rw [mem_candidates]
  constructor
  · rintro ⟨h1, h2⟩
    refine ⟨h1, slang_count.mpr ?_⟩
    simpa [itemOkB] using h2
  · rintro ⟨h1, h2⟩
    refine ⟨h1, ?_⟩
    simp only [itemOkB, beq_iff_eq]
    exact slang_count.mp h2

/-- Witness for C4: the word `bar` is a valid consumption of an `S 0` token. -/
theorem spaces_modifier_language_w :
    (wordBar, ([] : List Char)) ∈ candidates (Item.tok ['1'] (TokMod.spaces ['0'])) wordBar :=
  (spaces_modifier_language.1 ['1'] ['0'] wordBar wordBar []).mpr
    ⟨by decide, SLang.base (by unfold NoWs; decide)⟩

/-- C3: compilation escapes the whole template first and only then locates
token placeholders (in escaped form) — the compiled patterns are exactly
the result of that pipeline — and a template without placeholders matches
only its own literal text (metacharacters such as `.` included), plus an
optional trailing newline accepted by the end anchor. -/
theorem escaped_literals_match_exactly :
    (∀ ps g, grepperInit ps = Except.ok g →
      mapCompile (ps.map escape) = Except.ok g.regexes) ∧
    (∀ t items cs, map_pattern_to_re (escape t) = Except.ok items →
      items = cs.map Item.lit →
      ∀ s, (runItems items s).isSome = true ↔ (s = cs ∨ s = cs ++ ['\n'])) ∧
    buildMatches [tmplDot] tmplDot = true ∧
    buildMatches [tmplDot] lineAxb = false := by
  refine ⟨?_, ?_, by decide, by decide⟩
  · intro ps g hg
    exact (grepperInit_ok hg).2
  · intro t items cs hc hlit s
    rw [hlit]
    exact runItems_all_lit

/-- Witness for C3 at the template `a.b`: its compiled pattern is all-literal
and matches exactly the text `a.b`. -/
theorem escaped_literals_match_exactly_w :
    (runItems (List.map Item.lit tmplDot) tmplDot).isSome = true :=
  (escaped_literals_match_exactly.2.1 tmplDot (List.map Item.lit tmplDot) tmplDot
    (by decide) rfl tmplDot).mpr (Or.inl rfl)

/-- C10: duplicate-index detection compares digit strings, not integer
values: the template with both tokens 0 and 00 detects the two distinct
index strings, whose integer values coincide, compiles successfully into
two distinct capture groups, and `token(0)` returns only the text captured
by the token written `0` (the token written `00` captures separately). -/
theorem leading_zero_indices_distinct_groups :
    dsList tmplZeroZero = [['0'], ['0', '0']] ∧
    digitsVal ['0'] = digitsVal ['0', '0'] ∧
    isOkB (grepperInit [tmplZeroZero]) = true ∧
    (tokenGroupPfx ++ ['0']) ≠ (tokenGroupPfx ++ ['0', '0']) ∧
    tokenAt [tmplZeroZero] lineXY 0 = some ['X'] ∧
    groupAt [tmplZeroZero] lineXY (tokenGroupPfx ++ ['0']) = some ['X'] ∧
    groupAt [tmplZeroZero] lineXY (tokenGroupPfx ++ ['0', '0']) = some ['Y'] := by
  refine ⟨by decide, by decide, by decide, by decide, by decide, by decide, by decide⟩

theorem grepperInit_lengths {ps : List (List Char)} {g : Grepper}
    (h : grepperInit ps = Except.ok g) :
    g.patterns = ps ∧ g.regexes.length = g.patterns.length := by
  obtain ⟨h1, h2⟩ := grepperInit_ok h
  refine ⟨h1, ?_⟩
  have := (mapCompile_ok h2).1
  rw [h1]
  simpa using this

/-- C5: `match_line` tries the compiled patterns in declared order and the
result comes from the first full match — all earlier patterns fail — with
the originating template attached; when no pattern matches it returns the
no-match value (and, being a total function, never signals an error). -/
theorem first_match_wins :
    (∀ ps g, grepperInit ps = Except.ok g → g.patterns = ps ∧
      ∀ s, (g.match_line s = none ↔ ∀ items, items ∈ g.regexes → runItems items s = none) ∧
        (∀ m, g.match_line s = some m → ∃ pre x post,
          g.regexes.zip g.patterns = pre ++ x :: post ∧
          (∀ y, y ∈ pre → runItems y.1 s = none) ∧
          (runItems x.1 s).isSome = true ∧ m.pattern = x.2 ∧ m.line = s)) ∧
    patternAt [tmplFoo, tmplBaz] lineBaz = some tmplBaz ∧
    buildMatches [tmplFoo, tmplBaz] lineBlah = false := by
  refine ⟨?_, by decide, by decide⟩
  intro ps g hg
  obtain ⟨hp, hlen⟩ := grepperInit_lengths hg
  refine ⟨hp, ?_⟩
  intro s
  constructor
  · rw [Grepper.match_line, matchFirst_none_iff]
    constructor
    · intro h items hi
      have hmem : items ∈ (g.regexes.zip g.patterns).map Prod.fst := by
        rw [List.map_fst_zip _ _ (le_of_eq hlen)]
        exact hi
      obtain ⟨p, hp2, hp3⟩ := List.mem_map.mp hmem
      rw [← hp3]
      exact h p hp2
    · intro h p hp2
      exact h p.1 (List.of_mem_zip hp2).1
  · intro m hm
    obtain ⟨pre, x, post, asg, r, h1, h2, h3, h4⟩ := matchFirst_some hm
    refine ⟨pre, x, post, h1, h2, by rw [h3]; rfl, by rw [h4], by rw [h4]; rfl⟩

/-- Witness for C5: a two-template set where the second template supplies
the match. -/
theorem first_match_wins_w :
    ({ patterns := [tmplFoo, tmplBaz],
       regexes := [List.map Item.lit tmplFoo, List.map Item.lit tmplBaz] } : Grepper).patterns =
      [tmplFoo, tmplBaz] :=
  (first_match_wins.1 [tmplFoo, tmplBaz]
    ⟨[tmplFoo, tmplBaz], [List.map Item.lit tmplFoo, List.map Item.lit tmplBaz]⟩
    (by decide)).1

/-- C7: on a successful match, `token(i)` returns the captured text whenever
the matched pattern declared the group `token_<i>`, and yields the
invalid-token-index failure (the engine's unknown-group error, modelled as
a failure result, not a crash) whenever it did not; the match's group names
are exactly the declared groups of the matched pattern. -/
theorem token_declared_or_invalid :
    ∀ ps g, grepperInit ps = Except.ok g → ∀ s m, g.match_line s = some m →
      ∃ items pat, (items, pat) ∈ g.regexes.zip g.patterns ∧ m.pattern = pat ∧
        m.groups.map Prod.fst = declaredGroups items ∧
        (∀ i : Nat, (tokenGroupPfx ++ (Nat.repr i).data) ∈ m.groups.map Prod.fst →
          ∃ w, m.token i = Except.ok w ∧ (tokenGroupPfx ++ (Nat.repr i).data, w) ∈ m.groups) ∧
        (∀ i : Nat, (tokenGroupPfx ++ (Nat.repr i).data) ∉ m.groups.map Prod.fst →
          m.token i = Except.error TokenError.invalidTokenIndex) := by
  intro ps g hg s m hm
  obtain ⟨pre, x, post, asg, r, h1, h2, h3, h4⟩ := matchFirst_some hm
  have hgroups : m.groups = groupsOf asg := by rw [h4]
  refine ⟨x.1, x.2, ?_, by rw [h4], ?_, ?_, ?_⟩
  · rw [h1]
    exact List.mem_append.mpr (Or.inr (List.mem_cons_self _ _))
  · rw [hgroups]
    exact groupsOf_names (runItems_valid h3).1
  · intro i hi
    cases hl : lookupGroup m.groups (tokenGroupPfx ++ (Nat.repr i).data) with
    | none =>
      have := lookupGroup_isSome_of_mem hi
      rw [hl] at this
      simp at this
    | some w =>
      refine ⟨w, ?_, lookupGroup_some_mem hl⟩
      rw [Match.token, hl]
  · intro i hi
    rw [Match.token, lookupGroup_none_of_not_mem hi]

/-- Witness for C7 at a concrete pattern set, line and match value. -/
theorem token_declared_or_invalid_w :
    ∃ items pat,
      (items, pat) ∈
        (({ patterns := [tmplBaz], regexes := [List.map Item.lit tmplBaz] } : Grepper)).regexes.zip
          [tmplBaz] ∧
      Match.pattern { groups := [], string := lineBaz, pattern := tmplBaz } = pat ∧
      ({ groups := [], string := lineBaz, pattern := tmplBaz } : Match).groups.map Prod.fst =
        declaredGroups items ∧
      (∀ i : Nat, (tokenGroupPfx ++ (Nat.repr i).data) ∈
          (({ groups := [], string := lineBaz, pattern := tmplBaz } : Match)).groups.map Prod.fst →
        ∃ w, Match.token { groups := [], string := lineBaz, pattern := tmplBaz } i = Except.ok w ∧
          (tokenGroupPfx ++ (Nat.repr i).data, w) ∈
            (({ groups := [], string := lineBaz, pattern := tmplBaz } : Match)).groups) ∧
      (∀ i : Nat, (tokenGroupPfx ++ (Nat.repr i).data) ∉
          (({ groups := [], string := lineBaz, pattern := tmplBaz } : Match)).groups.map Prod.fst →
        Match.token { groups := [], string := lineBaz, pattern := tmplBaz } i =
          Except.error TokenError.invalidTokenIndex) :=
  token_declared_or_invalid [tmplBaz]
    ⟨[tmplBaz], [List.map Item.lit tmplBaz]⟩ (by decide) lineBaz
    { groups := [], string := lineBaz, pattern := tmplBaz } (by decide)

/-- C6: for every compiled template, the assignment the engine returns is a
valid full-line assignment and is engine-optimal: against any other valid
assignment, at the first differing atom the returned consumption is
preferred — shorter for an unmodified (lazy) token, longer for a greedy
(or spaces-limited) token, and literals never differ; concretely the
greedy spec pattern matches its spec line. -/
theorem lazy_min_greedy_max :
    (∀ t items, map_pattern_to_re (escape t) = Except.ok items →
      ∀ s asg r, runItems items s = some (asg, r) →
        ValidAsg items s asg r ∧
        ∀ asg2 r2, ValidAsg items s asg2 r2 → asg = asg2 ∨
          ∃ a it w w2 tl tl2, asg = a ++ (it, w) :: tl ∧ asg2 = a ++ (it, w2) :: tl2 ∧
            w ≠ w2 ∧ prefersOrEq it w w2) ∧
    buildMatches [tmplGreedy] lineAlt = true := by
  refine ⟨?_, by decide⟩
  intro t items hc s asg r h
  exact ⟨runItems_valid h, fun asg2 r2 hv => runItems_least h hv⟩

/-- Witness for C6: the greedy pattern's engine assignment on the spec line
is valid (token 0 takes the longest consumption, token 1 the rest). -/
theorem lazy_min_greedy_max_w :
    ValidAsg
      (List.map Item.lit ("bar ".data) ++ [Item.tok ['0'] TokMod.greedy] ++
        List.map Item.lit (" foo ".data) ++ [Item.tok ['1'] TokMod.non])
      lineAlt
      (List.map (fun c => (Item.lit c, [c])) ("bar ".data) ++
        [(Item.tok ['0'] TokMod.greedy, "foo bar foo bar".data)] ++
        List.map (fun c => (Item.lit c, [c])) (" foo ".data) ++
        [(Item.tok ['1'] TokMod.non, "bar foo".data)])
      [] :=
  (lazy_min_greedy_max.1 tmplGreedy
    (List.map Item.lit ("bar ".data) ++ [Item.tok ['0'] TokMod.greedy] ++
      List.map Item.lit (" foo ".data) ++ [Item.tok ['1'] TokMod.non])
    (by decide) lineAlt
    (List.map (fun c => (Item.lit c, [c])) ("bar ".data) ++
      [(Item.tok ['0'] TokMod.greedy, "foo bar foo bar".data)] ++
      List.map (fun c => (Item.lit c, [c])) (" foo ".data) ++
      [(Item.tok ['1'] TokMod.non, "bar foo".data)])
    [] (by decide)).1

/-- C1 counterexample: the template with tokens written `0` and `00` has two
placeholders whose indices, read as non-negative integers, are equal, yet
construction succeeds — duplicate detection does not compare integer
values. -/
theorem duplicate_integer_index_not_rejected :
    dsList tmplZeroZero = [['0'], ['0', '0']] ∧
    digitsVal ['0'] = digitsVal ['0', '0'] ∧
    isOkB (grepperInit [tmplZeroZero]) = true := ⟨by decide, by decide, by decide⟩

/-- C1 (amended): whenever a single template contains two token placeholders
with the same index digit string, compilation of that template fails with a
duplicate-token-index error that carries the offending placeholder and the
full template in unescaped form (the template exactly, for newline-free
templates), and any build whose template list contains it aborts with a
construction error — the duplicate-token-index error, or the repetition-
count overflow raised while compiling an earlier template — and no pattern
set. -/
theorem duplicate_digit_string_index_fails_build :
    ∀ t : List Char, ¬ (dsList t).Nodup →
      (∃ ds m, Item.tok ds m ∈ tokenize (escape t) ∧
        map_pattern_to_re (escape t) =
          Except.error (GrepError.duplicateTokenIndex (tokenText ds m) (unescape (escape t)))) ∧
      ('\n' ∉ t → unescape (escape t) = t) ∧
      ∀ ps, t ∈ ps →
        (∃ a b, grepperInit ps = Except.error (GrepError.duplicateTokenIndex a b)) ∨
        grepperInit ps = Except.error GrepError.repetitionTooLarge := by
  intro t hnd
  rcases @replaceTokens_shape (escape t) [] (tokenize (escape t)) with
    ⟨out, hout⟩ | ⟨ds, m, hmem, herr⟩
  · exfalso
    obtain ⟨_, hnodup, _⟩ := replaceTokens_ok hout
    exact hnd (by rw [dsList]; exact hnodup)
  · have hdig := tokenize_tok_digits hmem
    have hds : '\\' ∉ ds := by
      intro hin
      exact absurd (hdig.1 '\\' hin) (by decide)
    have hmod : '\\' ∉ modEsc m := by
      cases m with
      | non => simp [modEsc]
      | greedy => simp [modEsc]
      | spaces ms =>
        simp only [modEsc, List.mem_cons]
        push_neg
        refine ⟨by decide, ?_⟩
        intro hin
        exact absurd (hdig.2 ms (Or.inl rfl) '\\' hin) (by decide)
      | spacesLit ms =>
        simp only [modEsc, List.mem_cons]
        push_neg
        refine ⟨by decide, ?_⟩
        intro hin
        exact absurd (hdig.2 ms (Or.inr rfl) '\\' hin) (by decide)
    have hte := unescape_tokenEsc hds hmod
    have herr2 : map_pattern_to_re (escape t) =
        Except.error (GrepError.duplicateTokenIndex (tokenText ds m) (unescape (escape t))) := by
      rw [map_pattern_to_re, herr, hte]
    refine ⟨⟨ds, m, hmem, herr2⟩, fun h => unescape_escape h, ?_⟩
    intro ps hin
    have hmemmap : escape t ∈ ps.map escape := List.mem_map_of_mem _ hin
    obtain ⟨e2, he2⟩ := mapCompile_error_of_mem hmemmap herr2
    have hne : ps ≠ [] := by
      intro hh
      subst hh
      simp at hin
    rcases mapCompile_error_shape he2 with ⟨a, b, hab⟩ | hab
    · refine Or.inl ⟨a, b, ?_⟩
      rw [grepperInit, if_neg hne, he2, hab]
      rfl
    · refine Or.inr ?_
      rw [grepperInit, if_neg hne, he2, hab]
      rfl

/-- Witness for C1 at the duplicated spec template: the whole build fails
with a construction error. -/
theorem duplicate_digit_string_index_fails_build_w :
    (∃ a b, grepperInit [tmplDup] =
      Except.error (GrepError.duplicateTokenIndex a b)) ∨
    grepperInit [tmplDup] = Except.error GrepError.repetitionTooLarge :=
  (duplicate_digit_string_index_fails_build tmplDup (by decide)).2.2 [tmplDup] (by decide)
